import Mathlib

/-!
Verification of the exposure-optimization engine of the Lattice repository.

The repository ships the optimizer's test suite (tests/test_exposure_optimizer.py)
but the optimizer module itself (app/exposure_optimizer.py) is not present in the
sources; only the GUI (app.py) and the tests are.  Following the specification,
every definition below that embeds the optimizer is therefore modelled from the
spec (sections 3, 4.1-4.5, 6, 7 and the glossary), faithful to its words, and the
claims are settled against that model.

The canvas is modelled as an abstract finite pixel type P; a mask is a per-pixel
intensity raster, i.e. a function P -> Nat.  The other-fields of an image setting
(every field except file name and exposure duration) are modelled as an abstract
type O with decidable equality, since grouping only compares them for value
equality.
-/

namespace ExposureOptimizer

section Model

variable {P : Type} [Fintype P] [DecidableEq P]

variable {O : Type} [DecidableEq O]

/-- Modelled from the spec: a Mask is a fixed-size raster of per-pixel intensity
(spec section 3); the canvas is abstracted to a finite pixel type. -/
abbrev Mask (P : Type) := P → Nat

/-- Modelled from the spec: pixel-wise maximum of two masks (spec section 4.2
step 4, union is pixel-wise maximum). -/
def maskUnion (m1 m2 : Mask P) : Mask P := fun p => max (m1 p) (m2 p)

/-- Union of a list of masks, pixel-wise maximum with the all-black mask as unit. -/
def unionAll (ms : List (Mask P)) : Mask P := ms.foldr maskUnion (fun _ => 0)

/-- Modelled from the spec: two masks overlap spatially when their
non-zero-intensity pixel sets intersect (spec section 4.2 step 3). -/
def overlaps (m1 m2 : Mask P) : Prop := ∃ p, m1 p ≠ 0 ∧ m2 p ≠ 0

instance (m1 m2 : Mask P) : Decidable (overlaps m1 m2) :=
  inferInstanceAs (Decidable (∃ p, m1 p ≠ 0 ∧ m2 p ≠ 0))

/-- Modelled from the spec: pairwise spatial intersection check among a list of
masks (spec section 4.2 step 3): some pair at distinct positions overlaps. -/
def anyOverlap : List (Mask P) → Prop
  | [] => False
  | m :: rest => (∃ m2 ∈ rest, overlaps m m2) ∨ anyOverlap rest

instance anyOverlapDecidable : (ms : List (Mask P)) → Decidable (anyOverlap ms)
  | [] => isFalse (fun h => h)
  | m :: rest =>
    have i1 : Decidable (∃ m2 ∈ rest, overlaps m m2) := inferInstance
    have i2 : Decidable (anyOverlap rest) := anyOverlapDecidable rest
    @instDecidableOr _ _ i1 i2

/-- Modelled from the spec: the distinct required durations of a group, sorted
ascending (spec glossary, Delta schedule; spec section 4.2 step 5). -/
def thresholds (entries : List (Mask P × Nat)) : List Nat :=
  List.insertionSort (fun a b => a ≤ b) (entries.map Prod.snd).dedup

/-- Modelled from the spec: the composite mask of the pass emitted at duration
threshold t, the union of all masks still active at t, i.e. those whose
requested duration is at least t (spec section 4.2 step 5). -/
def passAt (entries : List (Mask P × Nat)) (t : Nat) : Mask P :=
  unionAll ((entries.filter (fun e => t ≤ e.2)).map Prod.fst)

/-- Modelled from the spec: one pass per ascending duration threshold, each
pass's duration being the increment over the previous threshold (spec glossary,
Delta schedule). -/
def deltaAux (entries : List (Mask P × Nat)) : List Nat → Nat → List (Mask P × Nat)
  | [], _ => []
  | t :: ts, prev => (passAt entries t, t - prev) :: deltaAux entries ts t

/-- Modelled from the spec: the delta schedule of a group of disjoint masks
(spec section 4.2 step 5). -/
def deltaSchedule (entries : List (Mask P × Nat)) : List (Mask P × Nat) :=
  deltaAux entries (thresholds entries) 0

/-- Modelled from the spec: fold the masks of zero-duration entries into the
union of the first emitted pass; a zero-duration entry never produces a
standalone pass on its own (spec section 4.2 step 2). -/
def foldZeros (zs : List (Mask P)) (passes : List (Mask P × Nat)) : List (Mask P × Nat) :=
  match zs, passes with
  | [], ps => ps
  | _ :: _, [] => []
  | z :: zrest, (m, d) :: rest => (maskUnion m (unionAll (z :: zrest)), d) :: rest

/-- Modelled from the spec: the MaskScheduler (spec section 4.2).  A single
entry passes through unchanged (step 1); zero-duration masks are folded into
the first emitted pass (step 2); if any pair of positive-duration masks
overlaps, every positive-duration entry is emitted as its own pass unchanged
(step 3); otherwise the delta schedule is emitted (steps 4 and 5, step 4 being
the one-threshold case of step 5). -/
def schedule (entries : List (Mask P × Nat)) : List (Mask P × Nat) :=
  if entries.length = 1 then entries
  else
    foldZeros ((entries.filter (fun e => e.2 = 0)).map Prod.fst)
      (if anyOverlap ((entries.filter (fun e => 0 < e.2)).map Prod.fst)
       then entries.filter (fun e => 0 < e.2)
       else deltaSchedule (entries.filter (fun e => 0 < e.2)))

/-- Per-pixel dose delivered by a list of passes: the sum of the durations of
the passes whose mask lights the pixel (spec section 4.2, invariant; glossary,
Dose).  Applied to the input entries themselves it is the pre-optimization
aggregate dose, each input being its own projector pass. -/
def pixelDose (passes : List (Mask P × Nat)) (p : P) : Nat :=
  ((passes.filter (fun e => e.1 p ≠ 0)).map Prod.snd).sum

/-- The per-pixel required duration in the sense of claim C1's wording: a pixel
active in several entries is dosed at most the larger requested duration, not
additively.  This definition follows the claim's words and exists to compare
the claimed invariant against the scheduler's actual output. -/
def requiredMaxDose (entries : List (Mask P × Nat)) (p : P) : Nat :=
  ((entries.filter (fun e => e.1 p ≠ 0)).map Prod.snd).foldr max 0

end Model

/-- Modelled from the spec: an ImageSetting holds a file name, a non-negative
exposure duration in ms, and the remaining other-fields (spec section 3);
the other-fields are abstracted to a type O compared by value equality. -/
structure ImageSetting (O : Type) where
  file : String
  exposure : Nat
  other : O
deriving DecidableEq

section Grouping

variable {P : Type} [Fintype P] [DecidableEq P]

variable {O : Type} [DecidableEq O]

/-- The distinct elements of a list in order of first occurrence. -/
def uniqueKeys : List O → List O
  | [] => []
  | o :: rest => o :: (uniqueKeys rest).filter (fun x => x ≠ o)

/-- Modelled from the spec: the SettingsGrouper (spec section 4.1), absent from
the sources.  Buckets a layer's settings by their other-fields fingerprint;
groups appear in insertion order of first occurrence and each bucket keeps the
input order of its members. -/
def group_by_settings (settings : List (ImageSetting O)) : List (O × List (ImageSetting O)) :=
  (uniqueKeys (settings.map (fun s => s.other))).map
    (fun o => (o, settings.filter (fun s => s.other = o)))

/-- Modelled from the spec: fresh file name for a newly composed mask, a base
name plus a disambiguating marker and a unique numeric suffix (spec section
4.3; the tests require the marker substring to be the five characters
underscore o p t underscore). -/
def freshName (k : Nat) : String :=
  String.mk ("img_opt_".data ++ (toString k).data)

/-- Association-list lookup by file name. -/
def alookup {A : Type} : List (String × A) → String → Option A
  | [], _ => none
  | (n, a) :: rest, n' => if n = n' then some a else alookup rest n'

/-- Look up every mask of a group from the images mapping by file name; a
missing mask is a fatal lookup failure for the run (spec section 7). -/
def lookupMasks (images : String → Option (Mask P)) :
    List (ImageSetting O) → Option (List (Mask P × Nat))
  | [] => some []
  | s :: rest =>
    match images s.file, lookupMasks images rest with
    | some m, some es => some ((m, s.exposure) :: es)
    | _, _ => none

/-- Modelled from the spec: schedule one compatibility group (spec section
4.3).  A single-entry group is a true 1:1 passthrough keeping its file name
and adding nothing to new images; otherwise the MaskScheduler runs on the
group's (mask, duration) pairs and every emitted pass is newly composed,
receiving a fresh file name; the counter k threads the unique suffixes. -/
def sched_group (images : String → Option (Mask P)) (k : Nat) (o : O)
    (group : List (ImageSetting O)) :
    Option (List (ImageSetting O) × List (String × Mask P) × Nat) :=
  if group.length = 1 then some (group, [], k)
  else
    match lookupMasks images group with
    | none => none
    | some entries =>
      let passes := schedule entries
      some (passes.enum.map (fun ie => ⟨freshName (k + ie.1), ie.2.2, o⟩),
            passes.enum.map (fun ie => (freshName (k + ie.1), ie.2.1)),
            k + passes.length)

/-- Modelled from the spec: run the scheduler over a layer's compatibility
groups in order, concatenating passes and accumulating new images, threading
the naming counter (spec sections 4.3 and 9). -/
def optimize_groups (images : String → Option (Mask P)) :
    Nat → List (O × List (ImageSetting O)) →
    Option (List (ImageSetting O) × List (String × Mask P) × Nat)
  | k, [] => some ([], [], k)
  | k, (o, g) :: rest =>
    match sched_group images k o g with
    | none => none
    | some (out1, ni1, k1) =>
      match optimize_groups images k1 rest with
      | none => none
      | some (out2, ni2, k2) => some (out1 ++ out2, ni1 ++ ni2, k2)

/-- Modelled from the spec: the LayerOptimizer (spec section 4.3), absent from
the sources.  Groups the layer's settings, schedules each group, concatenates
all groups' passes in group-then-pass order and collects the newly composed
masks keyed by their fresh names. -/
def optimize_layer (settings : List (ImageSetting O)) (images : String → Option (Mask P)) :
    Option (List (ImageSetting O) × List (String × Mask P)) :=
  match optimize_groups images 0 (group_by_settings settings) with
  | none => none
  | some (out, ni, _) => some (out, ni)

end Grouping

/-- Modelled from the spec: a PrintJob is an ordered sequence of layers, each
an ordered sequence of ImageSettings (spec section 3). -/
structure PrintJob (O : Type) where
  layers : List (List (ImageSetting O))
deriving DecidableEq

section Job

variable {P : Type} [Fintype P] [DecidableEq P]

variable {O : Type} [DecidableEq O]

/-- Modelled from the spec: optimize every layer in order, threading the
naming counter across layers so composite names stay unique job-wide (spec
sections 4.4 and 9). -/
def optimize_layers_go (images : String → Option (Mask P)) :
    Nat → List (List (ImageSetting O)) →
    Option (List (List (ImageSetting O)) × List (String × Mask P))
  | _, [] => some ([], [])
  | k, layer :: rest =>
    match optimize_groups images k (group_by_settings layer) with
    | none => none
    | some (out, ni, k1) =>
      match optimize_layers_go images k1 rest with
      | none => none
      | some (outs, nis) => some (out :: outs, ni ++ nis)

/-- Modelled from the spec: the PrintSettingsOptimizer (spec section 4.4),
absent from the sources.  Pure in-memory transform replacing every layer's
image-settings with its optimized passes and accumulating all new images. -/
def optimize_print_settings (job : PrintJob O) (images : String → Option (Mask P)) :
    Option (PrintJob O × List (String × Mask P)) :=
  match optimize_layers_go images 0 job.layers with
  | none => none
  | some (ls, ni) => some (⟨ls⟩, ni)

end Job

/-- An entry of the archive container: either a textual document or a raster
mask file (spec section 6). -/
inductive ZEntry (P : Type) where
  | doc (s : String)
  | img (m : Mask P)

/-- Modelled from the spec: the compressed, directory-structured archive,
holding one settings document at a fixed top-level name and zero or more mask
files under a fixed image-store sub-path (spec section 6). -/
structure ZipFile (P : Type) where
  entries : List (String × ZEntry P)

/-- A file-system path split into directory, stem and extension, enough to
express the default output path rule of spec section 6. -/
structure JPath where
  dir : String
  stem : String
  ext : String
deriving DecidableEq

/-- Modelled from the spec: the default output path, input stem with the
_optimized marker appended, same directory and extension as the input (spec
sections 4.5 and 6). -/
def defaultOutput (p : JPath) : JPath :=
  ⟨p.dir, String.mk (p.stem.data ++ "_optimized".data), p.ext⟩

/-- Fixed top-level name of the settings document in the archive (spec
section 6; the tests name it print_settings.json). -/
def settingsDocName : String := "print_settings.json"

/-- Fixed image-store sub-path of the archive (spec section 6; the tests use a
slices directory). -/
def slicesDir : String := "slices/"

section Archive

variable {P : Type} [Fintype P] [DecidableEq P]

variable {O : Type} [DecidableEq O]

/-- Read the raw settings document out of the archive, if present. -/
def findDoc (z : ZipFile P) : Option String :=
  match alookup z.entries settingsDocName with
  | some (ZEntry.doc s) => some s
  | _ => none

/-- Modelled from the spec: load the masks of the archive's image store into a
mapping by bare file name; an absent image-store sub-path simply yields an
empty mapping (spec sections 4.5 and 7). -/
def imagesOf (z : ZipFile P) : String → Option (Mask P) := fun n =>
  match alookup z.entries (String.mk (slicesDir.data ++ n.data)) with
  | some (ZEntry.img m) => some m
  | _ => none

/-- Every mask file name referenced anywhere in a job's settings. -/
def referencedFiles (job : PrintJob O) : List String :=
  job.layers.foldr (fun l acc => l.map (fun s => s.file) ++ acc) []

/-- The image-store entries of the input archive still referenced by the
optimized job, copied verbatim into the output archive (spec section 4.5). -/
def keptSlices (z : ZipFile P) (job : PrintJob O) : List (String × ZEntry P) :=
  z.entries.filter (fun ne =>
    match ne.2 with
    | ZEntry.img _ =>
      (referencedFiles job).any (fun f => String.mk (slicesDir.data ++ f.data) = ne.1)
    | _ => false)

/-- Modelled from the spec: the PrintFileOptimizer (spec section 4.5), absent
from the sources.  Decoding and encoding of the structured settings document
are capability parameters (spec section 9).  The function returns either the
decode error, surfaced unmodified with no output archive produced, or the
output path together with the archive written there; I/O is modelled as this
returned value, the input archive never being modified. -/
def optimize_print_file (decode : String → Except String (PrintJob O))
    (encode : PrintJob O → String) (input : ZipFile P) (inputPath : JPath)
    (outputPath : Option JPath) : Except String (JPath × ZipFile P) :=
  match findDoc input with
  | none => Except.error "missing settings document"
  | some doc =>
    match decode doc with
    | Except.error e => Except.error e
    | Except.ok job =>
      match optimize_print_settings job (imagesOf input) with
      | none => Except.error "missing image"
      | some (job1, newImgs) =>
        Except.ok (outputPath.getD (defaultOutput inputPath),
          ⟨(settingsDocName, ZEntry.doc (encode job1)) ::
            (keptSlices input job1 ++
              newImgs.map (fun nm => (String.mk (slicesDir.data ++ nm.1.data), ZEntry.img nm.2)))⟩)

end Archive

/-! ### The optimizer-output name marker -/

/-- Char-list version of: pat occurs at the start of the second list. -/
def beginsWith : List Char → List Char → Bool
  | [], _ => true
  | _ :: _, [] => false
  | c :: cs, d :: ds => decide (c = d) && beginsWith cs ds

/-- Char-list version of: pat occurs contiguously somewhere in the list. -/
def containsSeq (pat : List Char) : List Char → Bool
  | [] => pat.isEmpty
  | c :: rest => beginsWith pat (c :: rest) || containsSeq pat rest

/-- The tests' marker for optimizer-created composites: the five characters
underscore o p t underscore occur contiguously in the file name. -/
def hasMarker (s : String) : Bool := containsSeq "_opt_".data s.data

/-- The mask a pass's setting refers to: a newly composed mask from the new
images, or else the original mask from the input images mapping. -/
def passMask {P : Type} [Fintype P] [DecidableEq P] {O : Type} [DecidableEq O]
    (images : String → Option (Mask P)) (nimgs : List (String × Mask P))
    (s : ImageSetting O) : Option (Mask P) :=
  match alookup nimgs s.file with
  | some m => some m
  | none => images s.file

/-- Concrete test mask on a two-pixel canvas lighting only pixel 0. -/
def mLeft : Mask (Fin 2) := fun i => if i = 0 then 255 else 0

/-- Concrete test mask on a two-pixel canvas lighting only pixel 1. -/
def mRight : Mask (Fin 2) := fun i => if i = 1 then 255 else 0

/-- Concrete test mask on a two-pixel canvas lighting both pixels. -/
def mBoth : Mask (Fin 2) := fun _ => 255

/-- Concrete test mask on a three-pixel canvas lighting only pixel 0. -/
def cxA : Mask (Fin 3) := fun i => if i = 0 then 255 else 0

/-- Concrete test mask on a three-pixel canvas lighting pixels 0 and 2, so it
overlaps cxA at pixel 0. -/
def cxB : Mask (Fin 3) := fun i => if i = 2 then 255 else if i = 0 then 200 else 0

/-- Concrete test mask on a three-pixel canvas lighting only pixel 1. -/
def cxZ : Mask (Fin 3) := fun i => if i = 1 then 128 else 0

/-! ### Helper lemmas about masks, unions and the overlap check -/

section MaskLemmas

variable {P : Type}

@[simp]
theorem unionAll_nil (p : P) : unionAll ([] : List (Mask P)) p = 0 := rfl

@[simp]
theorem unionAll_cons (m : Mask P) (ms : List (Mask P)) (p : P) :
    unionAll (m :: ms) p = max (m p) (unionAll ms p) := rfl

theorem unionAll_one (m : Mask P) : unionAll [m] = m := by
  funext p
  simp

theorem unionAll_pair (m1 m2 : Mask P) : unionAll [m1, m2] = maskUnion m1 m2 := by
  funext p
  simp [maskUnion]

theorem unionAll_ne_zero (ms : List (Mask P)) (p : P) :
    unionAll ms p ≠ 0 ↔ ∃ m ∈ ms, m p ≠ 0 := by
  induction ms with
  | nil => simp
  | cons m rest ih =>
    simp only [unionAll_cons, List.mem_cons]
    constructor
    · intro h
      by_cases hm : m p = 0
      · have hrest : unionAll rest p ≠ 0 := fun h0 => h (by simp [hm, h0])
        rcases ih.mp hrest with ⟨m2, hm2, hne⟩
        exact ⟨m2, Or.inr hm2, hne⟩
      · exact ⟨m, Or.inl rfl, hm⟩
    · rintro ⟨m2, rfl | hm2, hne⟩
      · intro h0
        exact hne (Nat.max_eq_zero_iff.mp h0).1
      · intro h0
        exact (ih.mpr ⟨m2, hm2, hne⟩) (Nat.max_eq_zero_iff.mp h0).2

theorem unionAll_eq_zero (ms : List (Mask P)) (p : P) (h : ∀ m ∈ ms, m p = 0) :
    unionAll ms p = 0 := by
  by_contra hc
  rcases (unionAll_ne_zero ms p).mp hc with ⟨m, hm, hne⟩
  exact hne (h m hm)

@[simp]
theorem anyOverlap_nil : ¬ anyOverlap ([] : List (Mask P)) := fun h => h

theorem anyOverlap_cons (m : Mask P) (ms : List (Mask P)) :
    anyOverlap (m :: ms) ↔ (∃ m2 ∈ ms, overlaps m m2) ∨ anyOverlap ms := Iff.rfl

theorem anyOverlap_pair (m1 m2 : Mask P) : anyOverlap [m1, m2] ↔ overlaps m1 m2 := by
  simp [anyOverlap]

theorem anyOverlap_length {ms : List (Mask P)} (h : anyOverlap ms) : 2 ≤ ms.length := by
  induction ms with
  | nil => exact absurd h anyOverlap_nil
  | cons m rest ih =>
    rcases h with ⟨m2, hm2, _⟩ | h
    · rcases rest with _ | ⟨a, r⟩
      · simp at hm2
      · simp [Nat.succ_le_succ, Nat.succ_le_succ_iff]
    · have := ih h
      simp only [List.length_cons]
      omega

end MaskLemmas

/-! ### Helper lemmas about grouping -/

section GroupingLemmas

variable {O : Type} [DecidableEq O]

theorem mem_uniqueKeys (a : O) (l : List O) : a ∈ uniqueKeys l ↔ a ∈ l := by
  induction l with
  | nil => simp [uniqueKeys]
  | cons o rest ih =>
    simp only [uniqueKeys, List.mem_cons, List.mem_filter]
    constructor
    · rintro (rfl | ⟨h, _⟩)
      · exact Or.inl rfl
      · exact Or.inr (ih.mp h)
    · rintro (rfl | h)
      · exact Or.inl rfl
      · by_cases ha : a = o
        · exact Or.inl ha
        · exact Or.inr ⟨ih.mpr h, by simpa using ha⟩

theorem nodup_uniqueKeys (l : List O) : (uniqueKeys l).Nodup := by
  induction l with
  | nil => simp [uniqueKeys]
  | cons o rest ih =>
    refine List.Nodup.cons ?_ (List.Nodup.filter _ ih)
    intro hmem
    rcases List.mem_filter.mp hmem with ⟨_, hne⟩
    simp at hne

theorem uniqueKeys_const {o : O} {l : List O} (h : ∀ x ∈ l, x = o) (hne : l ≠ []) :
    uniqueKeys l = [o] := by
  induction l with
  | nil => exact absurd rfl hne
  | cons a rest ih =>
    have ha : a = o := h a (by simp)
    subst ha
    by_cases hr : rest = []
    · subst hr
      simp [uniqueKeys]
    · have hrest := ih (fun x hx => h x (List.mem_cons_of_mem _ hx)) hr
      simp [uniqueKeys, hrest]

@[simp]
theorem group_by_settings_nil :
    group_by_settings ([] : List (ImageSetting O)) = [] := rfl

theorem group_by_settings_uniform {o : O} {settings : List (ImageSetting O)}
    (h : ∀ s ∈ settings, s.other = o) (hne : settings ≠ []) :
    group_by_settings settings = [(o, settings)] := by
  unfold group_by_settings
  have hkeys : uniqueKeys (settings.map (fun s => s.other)) = [o] := by
    refine uniqueKeys_const ?_ (by simpa using hne)
    intro x hx
    rcases List.mem_map.mp hx with ⟨s, hs, rfl⟩
    exact h s hs
  rw [hkeys]
  simp only [List.map_cons, List.map_nil]
  congr 2
  exact List.filter_eq_self.mpr (fun s hs => by simp [h s hs])

theorem bucket_subset {settings : List (ImageSetting O)} {og : O × List (ImageSetting O)}
    (hog : og ∈ group_by_settings settings) : ∀ s ∈ og.2, s ∈ settings := by
  rcases List.mem_map.mp hog with ⟨o, _, rfl⟩
  intro s hs
  exact (List.mem_filter.mp hs).1

theorem bucket_key {settings : List (ImageSetting O)} {og : O × List (ImageSetting O)}
    (hog : og ∈ group_by_settings settings) : ∀ s ∈ og.2, s.other = og.1 := by
  rcases List.mem_map.mp hog with ⟨o, _, rfl⟩
  intro s hs
  have := (List.mem_filter.mp hs).2
  simpa using this

end GroupingLemmas

/-! ### Helper lemmas about the scheduler and per-pixel dose -/

section SchedulerLemmas

variable {P : Type} [Fintype P] [DecidableEq P]

@[simp]
theorem pixelDose_nil (p : P) : pixelDose ([] : List (Mask P × Nat)) p = 0 := rfl

theorem pixelDose_cons (m : Mask P) (d : Nat) (rest : List (Mask P × Nat)) (p : P) :
    pixelDose ((m, d) :: rest) p = (if m p ≠ 0 then d else 0) + pixelDose rest p := by
  unfold pixelDose
  rw [List.filter_cons]
  by_cases h : m p = 0
  · simp [h]
  · simp [h]

theorem pixelDose_zero (passes : List (Mask P × Nat)) (p : P)
    (h : ∀ q ∈ passes, q.1 p = 0) : pixelDose passes p = 0 := by
  induction passes with
  | nil => rfl
  | cons q rest ih =>
    rcases q with ⟨m, d⟩
    rw [pixelDose_cons]
    have hm : m p = 0 := h (m, d) (List.mem_cons_self _ _)
    simp [hm, ih fun q hq => h q (List.mem_cons_of_mem _ hq)]

theorem filter_pos_of_pos {entries : List (Mask P × Nat)} (hpos : ∀ e ∈ entries, 0 < e.2) :
    entries.filter (fun e => 0 < e.2) = entries :=
  List.filter_eq_self.mpr fun e he => by simpa using hpos e he

theorem filter_zero_of_pos {entries : List (Mask P × Nat)} (hpos : ∀ e ∈ entries, 0 < e.2) :
    entries.filter (fun e => e.2 = 0) = [] := by
  rw [List.filter_eq_nil_iff]
  intro e he
  have := hpos e he
  simp only [decide_eq_true_eq]
  omega

theorem schedule_overlap {entries : List (Mask P × Nat)} (hpos : ∀ e ∈ entries, 0 < e.2)
    (hov : anyOverlap (entries.map Prod.fst)) : schedule entries = entries := by
  have hlen : entries.length ≠ 1 := by
    have := anyOverlap_length hov
    simp only [List.length_map] at this
    omega
  unfold schedule
  rw [if_neg hlen]
  simp only [filter_pos_of_pos hpos, filter_zero_of_pos hpos]
  rw [if_pos hov]
  simp [foldZeros]

theorem schedule_delta {entries : List (Mask P × Nat)} (hpos : ∀ e ∈ entries, 0 < e.2)
    (hnov : ¬ anyOverlap (entries.map Prod.fst)) (hlen : entries.length ≠ 1) :
    schedule entries = deltaSchedule entries := by
  unfold schedule
  rw [if_neg hlen]
  simp only [filter_pos_of_pos hpos, filter_zero_of_pos hpos]
  rw [if_neg hnov]
  simp [foldZeros]

theorem filter_lit_singleton {entries : List (Mask P × Nat)} {p : P}
    (hnov : ¬ anyOverlap (entries.map Prod.fst)) {e0 : Mask P × Nat}
    (he : e0 ∈ entries) (hl : e0.1 p ≠ 0) :
    entries.filter (fun e => e.1 p ≠ 0) = [e0] := by
  induction entries with
  | nil => simp at he
  | cons x rest ih =>
    rw [List.map_cons, anyOverlap_cons] at hnov
    push_neg at hnov
    obtain ⟨hnov1, hnov2⟩ := hnov
    by_cases hx : x.1 p = 0
    · have hx0 : e0 ≠ x := fun h => hl (by rw [h]; exact hx)
      have he' : e0 ∈ rest := by
        rcases List.mem_cons.mp he with h | h
        · exact absurd h hx0
        · exact h
      rw [List.filter_cons, if_neg (by simp [hx])]
      exact ih hnov2 he'
    · have hrest : ∀ e ∈ rest, e.1 p = 0 := by
        intro e hee
        by_contra hep
        exact hnov1 e.1 (List.mem_map_of_mem _ hee) ⟨p, hx, hep⟩
      have he0x : e0 = x := by
        rcases List.mem_cons.mp he with h | h
        · exact h
        · exact absurd (hrest e0 h) hl
      subst he0x
      rw [List.filter_cons, if_pos (by simpa using hx)]
      have hfe : rest.filter (fun e => e.1 p ≠ 0) = [] :=
        List.filter_eq_nil_iff.mpr fun e hee => by simp [hrest e hee]
      rw [hfe]

theorem passAt_lit_iff (entries : List (Mask P × Nat)) (t : Nat) (p : P) :
    passAt entries t p ≠ 0 ↔ ∃ e ∈ entries, t ≤ e.2 ∧ e.1 p ≠ 0 := by
  unfold passAt
  rw [unionAll_ne_zero]
  constructor
  · rintro ⟨m, hm, hne⟩
    rcases List.mem_map.mp hm with ⟨e, hef, rfl⟩
    have hmem := List.mem_filter.mp hef
    exact ⟨e, hmem.1, by simpa using hmem.2, hne⟩
  · rintro ⟨e, he, ht, hne⟩
    exact ⟨e.1, List.mem_map_of_mem _ (List.mem_filter.mpr ⟨he, by simpa using ht⟩), hne⟩

theorem deltaAux_mask_mem {entries : List (Mask P × Nat)} :
    ∀ {ts : List Nat} {prev : Nat} {q : Mask P × Nat},
      q ∈ deltaAux entries ts prev → ∃ t ∈ ts, q.1 = passAt entries t := by
  intro ts
  induction ts with
  | nil =>
    intro prev q h
    simp [deltaAux] at h
  | cons t ts ih =>
    intro prev q h
    simp only [deltaAux] at h
    rcases List.mem_cons.mp h with h | h
    · exact ⟨t, by simp, by rw [h]⟩
    · rcases ih h with ⟨t1, ht1, hq⟩
      exact ⟨t1, by simp [ht1], hq⟩

theorem deltaAux_dose (entries : List (Mask P × Nat)) (p : P) (d0 : Nat) :
    ∀ (ts : List Nat) (prev : Nat), ts.Sorted (fun a b => a ≤ b) →
      (∀ t ∈ ts, prev ≤ t) →
      (∀ t ∈ ts, (passAt entries t p ≠ 0 ↔ t ≤ d0)) →
      pixelDose (deltaAux entries ts prev) p =
        (ts.filter (fun t => t ≤ d0)).getLastD prev - prev := by
  intro ts
  induction ts with
  | nil =>
    intro prev _ _ _
    simp [deltaAux]
  | cons t ts ih =>
    intro prev hsort hprev hL
    have hsort1 : ts.Sorted (fun a b => a ≤ b) := (List.sorted_cons.mp hsort).2
    have hts : ∀ t1 ∈ ts, t ≤ t1 := (List.sorted_cons.mp hsort).1
    have hLt := hL t (by simp)
    have hL1 : ∀ t1 ∈ ts, (passAt entries t1 p ≠ 0 ↔ t1 ≤ d0) :=
      fun t1 ht1 => hL t1 (by simp [ht1])
    simp only [deltaAux]
    rw [pixelDose_cons, List.filter_cons]
    by_cases hld : t ≤ d0
    · have hlit : passAt entries t p ≠ 0 := hLt.mpr hld
      rw [if_pos hlit, if_pos (by simpa using hld)]
      rw [ih t hsort1 hts hL1, List.getLastD_cons]
      have hXmem := List.getLastD_mem_cons (ts.filter (fun t1 => t1 ≤ d0)) t
      have hX : t ≤ (ts.filter (fun t1 => t1 ≤ d0)).getLastD t := by
        rcases List.mem_cons.mp hXmem with h | h
        · rw [h]
        · exact hts _ (List.mem_filter.mp h).1
      have hpt : prev ≤ t := hprev t (by simp)
      omega
    · have hnl : ¬ passAt entries t p ≠ 0 := fun h => hld (hLt.mp h)
      rw [if_neg hnl, if_neg (by simpa using hld)]
      have hfe : ts.filter (fun t1 => t1 ≤ d0) = [] :=
        List.filter_eq_nil_iff.mpr fun t1 ht1 => by
          have := hts t1 ht1
          simp only [decide_eq_true_eq]
          omega
      rw [ih t hsort1 hts hL1, hfe]
      simp [List.getLastD]

theorem getLastD_filter_sorted {d0 : Nat} :
    ∀ {ts : List Nat}, ts.Sorted (fun a b => a ≤ b) → d0 ∈ ts → ∀ x : Nat,
      (ts.filter (fun t => t ≤ d0)).getLastD x = d0 := by
  intro ts
  induction ts with
  | nil =>
    intro _ h
    simp at h
  | cons t ts ih =>
    intro hsort hmem x
    have hts : ∀ t1 ∈ ts, t ≤ t1 := (List.sorted_cons.mp hsort).1
    have hsort1 := (List.sorted_cons.mp hsort).2
    rw [List.filter_cons]
    by_cases htd : t ≤ d0
    · rw [if_pos (by simpa using htd), List.getLastD_cons]
      by_cases hdm : d0 ∈ ts
      · exact ih hsort1 hdm t
      · have hd0t : d0 = t := by
          rcases List.mem_cons.mp hmem with h | h
          · exact h
          · exact absurd h hdm
        have hfe : ts.filter (fun t1 => t1 ≤ d0) = [] :=
          List.filter_eq_nil_iff.mpr fun t1 ht1 => by
            have h1 := hts t1 ht1
            simp only [decide_eq_true_eq]
            intro hc
            exact hdm (by rw [show d0 = t1 by omega] at hmem ⊢; exact ht1)
        rw [hfe]
        simp [List.getLastD, hd0t]
    · exfalso
      rcases List.mem_cons.mp hmem with h | h
      · exact htd (le_of_eq h.symm)
      · exact htd (hts d0 h)

theorem thresholds_sorted (entries : List (Mask P × Nat)) :
    (thresholds entries).Sorted (fun a b => a ≤ b) :=
  List.sorted_insertionSort _ _

theorem mem_thresholds {entries : List (Mask P × Nat)} {e : Mask P × Nat} (he : e ∈ entries) :
    e.2 ∈ thresholds entries := by
  unfold thresholds
  rw [List.mem_insertionSort, List.mem_dedup]
  exact List.mem_map_of_mem _ he

theorem delta_pixelDose {entries : List (Mask P × Nat)} {p : P}
    (hnov : ¬ anyOverlap (entries.map Prod.fst)) :
    pixelDose (deltaSchedule entries) p = pixelDose entries p := by
  by_cases hex : ∃ e ∈ entries, e.1 p ≠ 0
  · rcases hex with ⟨e0, he0, hl⟩
    have hfl := filter_lit_singleton hnov he0 hl
    have hrhs : pixelDose entries p = e0.2 := by
      unfold pixelDose
      rw [hfl]
      simp
    rw [hrhs]
    unfold deltaSchedule
    have hL : ∀ t ∈ thresholds entries, (passAt entries t p ≠ 0 ↔ t ≤ e0.2) := by
      intro t _
      rw [passAt_lit_iff]
      constructor
      · rintro ⟨e, he, htle, hep⟩
        have hmem : e ∈ entries.filter (fun e => e.1 p ≠ 0) :=
          List.mem_filter.mpr ⟨he, by simpa using hep⟩
        rw [hfl] at hmem
        rcases List.mem_singleton.mp hmem with rfl
        exact htle
      · intro ht2
        exact ⟨e0, he0, ht2, hl⟩
    rw [deltaAux_dose entries p e0.2 (thresholds entries) 0 (thresholds_sorted entries)
      (fun t _ => Nat.zero_le t) hL]
    rw [getLastD_filter_sorted (thresholds_sorted entries) (mem_thresholds he0) 0]
    omega
  · push_neg at hex
    have hrhs : pixelDose entries p = 0 := pixelDose_zero _ _ hex
    rw [hrhs]
    apply pixelDose_zero
    intro q hq
    rcases deltaAux_mask_mem hq with ⟨t, _, hqt⟩
    rw [hqt]
    apply unionAll_eq_zero
    intro m hm
    rcases List.mem_map.mp hm with ⟨e, hef, rfl⟩
    exact hex e (List.mem_filter.mp hef).1

end SchedulerLemmas

/-! ### Helper lemmas about the layer optimizer -/

section LayerLemmas

variable {P : Type} [Fintype P] [DecidableEq P]

variable {O : Type} [DecidableEq O]

theorem enumFrom_map {α β : Type} (f : α → β) :
    ∀ (l : List α) (n : Nat),
      (l.map f).enumFrom n = (l.enumFrom n).map (fun ix => (ix.1, f ix.2)) := by
  intro l
  induction l with
  | nil => intro n; rfl
  | cons a l ih =>
    intro n
    simp only [List.map_cons, List.enumFrom, ih]

theorem lookupMasks_pairs {images : String → Option (Mask P)} :
    ∀ {gs : List (ImageSetting O × Mask P)},
      (∀ x ∈ gs, images x.1.file = some x.2) →
      lookupMasks images (gs.map Prod.fst) = some (gs.map (fun x => (x.2, x.1.exposure))) := by
  intro gs
  induction gs with
  | nil => intro _; rfl
  | cons x rest ih =>
    intro h
    simp only [List.map_cons, lookupMasks]
    rw [h x (List.mem_cons_self _ _), ih (fun y hy => h y (List.mem_cons_of_mem _ hy))]

theorem sched_group_single (images : String → Option (Mask P)) (k : Nat) (o : O)
    (s : ImageSetting O) : sched_group images k o [s] = some ([s], [], k) := by
  unfold sched_group
  rw [if_pos (by simp)]

theorem sched_group_multi {images : String → Option (Mask P)} {k : Nat} {o : O}
    {group : List (ImageSetting O)} (hlen : group.length ≠ 1)
    {entries : List (Mask P × Nat)} (hlk : lookupMasks images group = some entries) :
    sched_group images k o group = some
      ((schedule entries).enum.map (fun ie => ⟨freshName (k + ie.1), ie.2.2, o⟩),
       (schedule entries).enum.map (fun ie => (freshName (k + ie.1), ie.2.1)),
       k + (schedule entries).length) := by
  unfold sched_group
  rw [if_neg hlen, hlk]

theorem optimize_layer_uniform {settings : List (ImageSetting O)} {o : O}
    (h : ∀ s ∈ settings, s.other = o) (hne : settings ≠ [])
    (images : String → Option (Mask P)) :
    optimize_layer settings images =
      (sched_group images 0 o settings).map (fun x => (x.1, x.2.1)) := by
  unfold optimize_layer
  rw [group_by_settings_uniform h hne]
  simp only [optimize_groups]
  cases hsg : sched_group images 0 o settings with
  | none => rfl
  | some x =>
    rcases x with ⟨out, ni, k⟩
    simp [optimize_groups]

end LayerLemmas

section MarkerLemmas

theorem beginsWith_self_append : ∀ p t : List Char, beginsWith p (p ++ t) = true := by
  intro p
  induction p with
  | nil => intro t; rfl
  | cons c cs ih =>
    intro t
    simp [beginsWith, ih]

theorem containsSeq_append (pat : List Char) :
    ∀ l t : List Char, beginsWith pat t = true → containsSeq pat (l ++ t) = true := by
  intro l
  induction l with
  | nil =>
    intro t h
    cases t with
    | nil =>
      cases pat with
      | nil => rfl
      | cons c cs => simp [beginsWith] at h
    | cons c r => simp [containsSeq, h]
  | cons a l ih =>
    intro t h
    simp [containsSeq, ih t h]

theorem hasMarker_freshName (k : Nat) : hasMarker (freshName k) = true := by
  show containsSeq "_opt_".data ("img_opt_".data ++ (toString k).data) = true
  have h1 : "img_opt_".data = "img".data ++ "_opt_".data := by decide
  rw [h1, List.append_assoc]
  exact containsSeq_append _ _ _ (beginsWith_self_append _ _)

end MarkerLemmas

section MarkerOutput

variable {P : Type} [Fintype P] [DecidableEq P]

variable {O : Type} [DecidableEq O]

theorem marker_sched_group {images : String → Option (Mask P)} {k : Nat} {o : O}
    {g : List (ImageSetting O)} {out1 : List (ImageSetting O)}
    {ni1 : List (String × Mask P)} {k1 : Nat}
    (h : sched_group images k o g = some (out1, ni1, k1)) :
    (∀ nm ∈ ni1, hasMarker nm.1 = true) ∧
    (∀ s1 ∈ out1, hasMarker s1.file = true ∨ s1 ∈ g) := by
  unfold sched_group at h
  by_cases hlen : g.length = 1
  · rw [if_pos hlen] at h
    simp only [Option.some.injEq, Prod.mk.injEq] at h
    obtain ⟨h1, h2, -⟩ := h
    subst h1
    subst h2
    exact ⟨fun nm hnm => by simp at hnm, fun s1 hs1 => Or.inr hs1⟩
  · rw [if_neg hlen] at h
    cases hlk : lookupMasks images g with
    | none =>
      rw [hlk] at h
      simp at h
    | some entries =>
      rw [hlk] at h
      simp only [Option.some.injEq, Prod.mk.injEq] at h
      obtain ⟨h1, h2, -⟩ := h
      subst h1
      subst h2
      constructor
      · intro nm hnm
        rcases List.mem_map.mp hnm with ⟨ie, -, rfl⟩
        exact hasMarker_freshName _
      · intro s1 hs1
        rcases List.mem_map.mp hs1 with ⟨ie, -, rfl⟩
        exact Or.inl (hasMarker_freshName _)

theorem marker_groups {images : String → Option (Mask P)} :
    ∀ (groups : List (O × List (ImageSetting O))) (k : Nat)
      {res : List (ImageSetting O) × List (String × Mask P) × Nat},
      optimize_groups images k groups = some res →
      (∀ nm ∈ res.2.1, hasMarker nm.1 = true) ∧
      (∀ s1 ∈ res.1, hasMarker s1.file = true ∨ ∃ og ∈ groups, s1 ∈ og.2) := by
  intro groups
  induction groups with
  | nil =>
    intro k res h
    simp only [optimize_groups, Option.some.injEq] at h
    subst h
    exact ⟨fun nm hnm => by simp at hnm, fun s1 hs1 => by simp at hs1⟩
  | cons og rest ih =>
    intro k res h
    rcases og with ⟨o, g⟩
    simp only [optimize_groups] at h
    cases hsg : sched_group images k o g with
    | none =>
      simp only [hsg] at h
      exact absurd h (by simp)
    | some x =>
      simp only [hsg] at h
      rcases x with ⟨out1, ni1, k1⟩
      cases hog : optimize_groups images k1 rest with
      | none =>
        simp only [hog] at h
        exact absurd h (by simp)
      | some y =>
        simp only [hog] at h
        rcases y with ⟨out2, ni2, k2⟩
        simp only [Option.some.injEq] at h
        subst h
        obtain ⟨hni1, hout1⟩ := marker_sched_group hsg
        obtain ⟨hni2, hout2⟩ := ih k1 hog
        constructor
        · intro nm hnm
          rcases List.mem_append.mp hnm with hnm | hnm
          · exact hni1 nm hnm
          · exact hni2 nm hnm
        · intro s1 hs1
          rcases List.mem_append.mp hs1 with hs1 | hs1
          · rcases hout1 s1 hs1 with hm | hm
            · exact Or.inl hm
            · exact Or.inr ⟨(o, g), List.mem_cons_self _ _, hm⟩
          · rcases hout2 s1 hs1 with hm | ⟨og2, hog2, hm⟩
            · exact Or.inl hm
            · exact Or.inr ⟨og2, List.mem_cons_of_mem _ hog2, hm⟩

end MarkerOutput

/-! ### Further helper lemmas for the delta schedule -/

section DeltaLemmas

variable {P : Type} [Fintype P] [DecidableEq P]

theorem dedup_const {d : Nat} :
    ∀ {l : List Nat}, l ≠ [] → (∀ a ∈ l, a = d) → l.dedup = [d] := by
  intro l
  induction l with
  | nil => intro h _; exact absurd rfl h
  | cons a rest ih =>
    intro _ hall
    have ha : a = d := hall a (List.mem_cons_self _ _)
    subst ha
    by_cases hr : rest = []
    · subst hr
      simp
    · have hmem : a ∈ rest := by
        rcases rest with _ | ⟨b, r⟩
        · exact absurd rfl hr
        · have hb : b = a := hall b (List.mem_cons_of_mem _ (List.mem_cons_self _ _))
          rw [← hb]
          exact List.mem_cons_self _ _
      have hrd := ih hr (fun x hx => hall x (List.mem_cons_of_mem _ hx))
      rw [List.dedup_cons_of_mem hmem]
      exact hrd

theorem deltaAux_length (entries : List (Mask P × Nat)) :
    ∀ (ts : List Nat) (prev : Nat), (deltaAux entries ts prev).length = ts.length := by
  intro ts
  induction ts with
  | nil => intro prev; rfl
  | cons t ts ih =>
    intro prev
    simp only [deltaAux, List.length_cons, ih]

theorem deltaAux_getElem (entries : List (Mask P × Nat)) :
    ∀ (ts : List Nat) (prev i : Nat),
      (deltaAux entries ts prev)[i]? = (ts[i]?).map
        (fun t => (passAt entries t, t - (if i = 0 then prev else ts.getD (i - 1) 0))) := by
  intro ts
  induction ts with
  | nil =>
    intro prev i
    simp [deltaAux]
  | cons t ts ih =>
    intro prev i
    cases i with
    | zero => simp [deltaAux]
    | succ j =>
      simp only [deltaAux, List.getElem?_cons_succ]
      rw [ih t j]
      have harg : (if j = 0 then t else ts.getD (j - 1) 0) = (t :: ts).getD j 0 := by
        cases j with
        | zero => simp [List.getD]
        | succ jj => simp [List.getD]
      simp only [harg, Nat.succ_ne_zero, if_false, Nat.succ_sub_one]

end DeltaLemmas

/-! ### Claim theorems -/

/-- C6: group_by_settings on an empty sequence returns an empty mapping, and for
every input sequence it buckets settings by value equality of the other-fields:
two settings of the input share a bucket exactly when their other-fields are
equal, regardless of their file names and exposure durations (which are separate
fields of the model and play no part in the bucketing). -/
theorem claim_C6 {O : Type} [DecidableEq O] :
    group_by_settings ([] : List (ImageSetting O)) = [] ∧
    ∀ (settings : List (ImageSetting O)) (s1 s2 : ImageSetting O),
      s1 ∈ settings → s2 ∈ settings →
      ((∃ og ∈ group_by_settings settings, s1 ∈ og.2 ∧ s2 ∈ og.2) ↔ s1.other = s2.other) := by
  refine ⟨rfl, ?_⟩
  intro settings s1 s2 h1 h2
  constructor
  · rintro ⟨og, hog, hs1, hs2⟩
    rw [bucket_key hog s1 hs1, bucket_key hog s2 hs2]
  · intro heq
    refine ⟨(s1.other, settings.filter (fun s => s.other = s1.other)), ?_, ?_, ?_⟩
    · unfold group_by_settings
      apply List.mem_map_of_mem
      rw [mem_uniqueKeys]
      exact List.mem_map_of_mem _ h1
    · exact List.mem_filter.mpr ⟨h1, by simp⟩
    · exact List.mem_filter.mpr ⟨h2, by simp [heq]⟩

/-- Witness for C6 at a concrete input: two settings sharing other-fields but
with different file names and exposure durations land in one common bucket. -/
theorem claim_C6_witness :
    ∃ og ∈ group_by_settings
        [(⟨"img1.png", 1000, 7⟩ : ImageSetting Nat), ⟨"img2.png", 2000, 7⟩],
      (⟨"img1.png", 1000, 7⟩ : ImageSetting Nat) ∈ og.2 ∧
      (⟨"img2.png", 2000, 7⟩ : ImageSetting Nat) ∈ og.2 :=
  (claim_C6.2 _ _ _ (by simp) (by simp)).mpr rfl

/-- C7: a compatibility group containing exactly one ImageSetting is passed
through unchanged by the group scheduler, adding nothing to the new-images
collection and leaving the naming counter untouched; in particular optimize_layer
on a single-setting layer returns the settings list unchanged and an empty
new-images mapping. -/
theorem claim_C7 {P : Type} [Fintype P] [DecidableEq P] {O : Type} [DecidableEq O]
    (s : ImageSetting O) (images : String → Option (Mask P)) (k : Nat) (o : O) :
    sched_group images k o [s] = some ([s], [], k) ∧
    optimize_layer [s] images = some ([s], []) := by
  refine ⟨sched_group_single images k o s, ?_⟩
  rw [optimize_layer_uniform (o := s.other)
    (fun x hx => by rw [List.mem_singleton.mp hx]) (by simp) images]
  rw [sched_group_single]
  rfl

/-- Counterexample to C1 as stated.  First conjunct: for two overlapping
1000 ms masks the scheduler emits both passes unchanged, so the pixel in the
intersection receives 2000 ms, while the claim's required duration (a pixel in
several entries dosed at most the larger requested duration, not additively)
is 1000 ms.  Second conjunct: a zero-duration mask disjoint from a 1000 ms
mask is folded into the sole emitted pass, so its private pixel receives
1000 ms, while its required duration is 0 under the claim's max reading
(requiredMaxDose) and under the additive reading (pixelDose of the inputs)
alike.  So the stated invariant fails for overlapping groups and for groups
with zero-duration entries. -/
theorem claim_C1_counterexample :
    (pixelDose (schedule [(mLeft, 1000), (mBoth, 1000)]) 0 = 2000 ∧
      requiredMaxDose [(mLeft, 1000), (mBoth, 1000)] 0 = 1000) ∧
    (pixelDose (schedule [(mRight, 0), (mLeft, 1000)]) 1 = 1000 ∧
      requiredMaxDose [(mRight, 0), (mLeft, 1000)] 1 = 0 ∧
      pixelDose [(mRight, 0), (mLeft, 1000)] 1 = 0) := by
  decide

/-- C1 amended: for every compatibility group whose entries all have positive
durations, and every pixel, the sum of the durations of the emitted passes
whose composite mask lights that pixel equals the pixel's pre-optimization
dose, the sum of the durations of the input (mask, duration) pairs whose mask
lights it (each input being its own projector pass originally; for the
disjoint groups that the scheduler actually merges, a pixel lies in at most
one input mask, so this sum is that mask's requested duration). -/
theorem claim_C1_amended {P : Type} [Fintype P] [DecidableEq P]
    (entries : List (Mask P × Nat)) (hpos : ∀ e ∈ entries, 0 < e.2) (p : P) :
    pixelDose (schedule entries) p = pixelDose entries p := by
  by_cases hlen : entries.length = 1
  · unfold schedule
    rw [if_pos hlen]
  · by_cases hov : anyOverlap (entries.map Prod.fst)
    · rw [schedule_overlap hpos hov]
    · rw [schedule_delta hpos hov hlen]
      exact delta_pixelDose hov

/-- Witness for the amended C1 at a concrete disjoint group with durations
1000 and 2000 on a two-pixel canvas. -/
theorem claim_C1_witness :
    pixelDose (schedule [(mLeft, 1000), (mRight, 2000)]) 0 =
      pixelDose [(mLeft, 1000), (mRight, 2000)] 0 :=
  claim_C1_amended _ (by decide) 0

/-- C2: for two spatially disjoint masks in one compatibility group with
durations 1000 and 2000 ms, optimize_layer emits exactly two passes of 1000 ms
each, the first pass's composite being the pixel-wise union of both masks and
the second being the longer-duration mask alone; and in general, for a
non-singleton group of positive-duration pairwise-disjoint masks, the schedule
is the delta schedule: one pass per distinct duration threshold in ascending
order, the i-th pass's mask being the union of all masks still active at the
i-th threshold and its duration the increment over the previous threshold. -/
theorem claim_C2 {P : Type} [Fintype P] [DecidableEq P] {O : Type} [DecidableEq O]
    (m1 m2 : Mask P) (o : O) (f1 f2 : String) (hne : f1 ≠ f2)
    (hdisj : ¬ overlaps m1 m2) :
    optimize_layer [⟨f1, 1000, o⟩, ⟨f2, 2000, o⟩]
        (fun f => if f = f1 then some m1 else if f = f2 then some m2 else none) =
      some ([⟨freshName 0, 1000, o⟩, ⟨freshName 1, 1000, o⟩],
        [(freshName 0, maskUnion m1 m2), (freshName 1, m2)]) ∧
    (∀ entries : List (Mask P × Nat), (∀ e ∈ entries, 0 < e.2) →
      ¬ anyOverlap (entries.map Prod.fst) → entries.length ≠ 1 →
      schedule entries = deltaSchedule entries ∧
      (schedule entries).length = (thresholds entries).length ∧
      ∀ i : Nat, (schedule entries)[i]? = ((thresholds entries)[i]?).map
        (fun t => (passAt entries t, t - (if i = 0 then 0 else (thresholds entries).getD (i - 1) 0)))) := by
  constructor
  · have himg1 : (fun f => if f = f1 then some m1 else if f = f2 then some m2 else none) f1
        = some m1 := by simp
    have himg2 : (fun f => if f = f1 then some m1 else if f = f2 then some m2 else none) f2
        = some m2 := by simp [Ne.symm hne]
    rw [optimize_layer_uniform (o := o)
      (fun x hx => by rcases List.mem_cons.mp hx with rfl | hx; · rfl
                      rcases List.mem_cons.mp hx with rfl | hx; · rfl
                      simp at hx)
      (by simp) _]
    have hlk : lookupMasks (fun f => if f = f1 then some m1 else if f = f2 then some m2 else none)
        [(⟨f1, 1000, o⟩ : ImageSetting O), ⟨f2, 2000, o⟩] = some [(m1, 1000), (m2, 2000)] := by
      simp only [lookupMasks]
      simp [hne, Ne.symm hne]
    rw [sched_group_multi (by simp) hlk]
    have hsch : schedule [(m1, 1000), (m2, 2000)] = [(maskUnion m1 m2, 1000), (m2, 1000)] := by
      have hpos : ∀ e ∈ [(m1, (1000 : Nat)), (m2, 2000)], 0 < e.2 := by
        intro e he
        rcases List.mem_cons.mp he with rfl | he
        · norm_num
        rcases List.mem_cons.mp he with rfl | he
        · norm_num
        simp at he
      have hnov : ¬ anyOverlap ([(m1, (1000 : Nat)), (m2, 2000)].map Prod.fst) := by
        rw [show [(m1, (1000 : Nat)), (m2, 2000)].map Prod.fst = [m1, m2] from rfl,
          anyOverlap_pair]
        exact hdisj
      rw [schedule_delta hpos hnov (by simp)]
      unfold deltaSchedule
      have hth : thresholds [(m1, (1000 : Nat)), (m2, 2000)] = [1000, 2000] := by
        unfold thresholds
        rw [show [(m1, (1000 : Nat)), (m2, 2000)].map Prod.snd = [1000, 2000] from rfl]
        decide
      rw [hth]
      simp only [deltaAux]
      rw [show passAt [(m1, (1000 : Nat)), (m2, 2000)] 1000 = unionAll [m1, m2] from rfl]
      rw [show passAt [(m1, (1000 : Nat)), (m2, 2000)] 2000 = unionAll [m2] from rfl]
      rw [unionAll_pair, unionAll_one]
    rw [hsch]
    simp [List.enum, List.enumFrom]
  · intro entries hpos hnov hlen
    refine ⟨schedule_delta hpos hnov hlen, ?_, ?_⟩
    · rw [schedule_delta hpos hnov hlen]
      unfold deltaSchedule
      exact deltaAux_length entries (thresholds entries) 0
    · intro i
      rw [schedule_delta hpos hnov hlen]
      unfold deltaSchedule
      exact deltaAux_getElem entries (thresholds entries) 0 i

/-- Witness for C2 at concrete disjoint masks on a two-pixel canvas. -/
theorem claim_C2_witness :
    optimize_layer [⟨"image1.png", 1000, (0 : Nat)⟩, ⟨"image2.png", 2000, 0⟩]
        (fun f => if f = "image1.png" then some mLeft
          else if f = "image2.png" then some mRight else none) =
      some ([⟨freshName 0, 1000, 0⟩, ⟨freshName 1, 1000, 0⟩],
        [(freshName 0, maskUnion mLeft mRight), (freshName 1, mRight)]) :=
  (claim_C2 mLeft mRight 0 "image1.png" "image2.png" (by decide) (by decide)).1

/-- Counterexample to C3 as stated.  The group has an overlapping pair of
positive-duration masks (cxA and cxB, 1000 ms each), so the claim predicts one
pass per input mask, three in all, with durations unchanged.  The group also
holds a zero-duration entry, which the scheduler folds into the first emitted
pass instead of emitting it, so only two passes come out. -/
theorem claim_C3_counterexample :
    overlaps cxA cxB ∧
    (optimize_layer [⟨"z.png", 0, (0 : Nat)⟩, ⟨"a.png", 1000, 0⟩, ⟨"b.png", 1000, 0⟩]
        (fun f => if f = "z.png" then some cxZ else if f = "a.png" then some cxA
          else if f = "b.png" then some cxB else none)).map (fun r => r.1.length) =
      some 2 := by
  decide

/-- C3 amended: if any pair of masks of a compatibility group overlaps
spatially and every entry of the group has a positive duration, the scheduler
merges nothing: it emits exactly one pass per input mask, in input order, each
with its original duration unchanged and its original other-fields, but each
mask re-encoded as a new composite image (content-identical, under a fresh
marker name, one new image per input).  (Zero-duration entries, when present,
are folded into the first pass instead of being emitted, which is what the
counterexample exhibits.) -/
theorem claim_C3_amended {P : Type} [Fintype P] [DecidableEq P] {O : Type} [DecidableEq O]
    (gs : List (ImageSetting O × Mask P)) (o : O) (images : String → Option (Mask P))
    (hother : ∀ x ∈ gs, x.1.other = o)
    (hpos : ∀ x ∈ gs, 0 < x.1.exposure)
    (hov : anyOverlap (gs.map Prod.snd))
    (himg : ∀ x ∈ gs, images x.1.file = some x.2) :
    optimize_layer (gs.map Prod.fst) images =
      some (gs.enum.map (fun ix => (⟨freshName ix.1, ix.2.1.exposure, o⟩ : ImageSetting O)),
            gs.enum.map (fun ix => (freshName ix.1, ix.2.2))) := by
  have hlen2 : 2 ≤ gs.length := by
    have := anyOverlap_length hov
    simpa using this
  have hne : gs.map Prod.fst ≠ [] := by
    intro h
    rw [List.map_eq_nil] at h
    subst h
    simp at hlen2
  rw [optimize_layer_uniform (o := o)
    (fun s hs => by rcases List.mem_map.mp hs with ⟨x, hx, rfl⟩; exact hother x hx) hne images]
  have hlk := lookupMasks_pairs himg
  rw [sched_group_multi (by rw [List.length_map]; omega) hlk]
  have hfst : ((gs.map (fun x => (x.2, x.1.exposure))).map Prod.fst) = gs.map Prod.snd := by
    rw [List.map_map]
    rfl
  have hpos1 : ∀ e ∈ gs.map (fun x => (x.2, x.1.exposure)), 0 < e.2 := by
    intro e he
    rcases List.mem_map.mp he with ⟨x, hx, rfl⟩
    exact hpos x hx
  have hov1 : anyOverlap ((gs.map (fun x => (x.2, x.1.exposure))).map Prod.fst) := by
    rw [hfst]
    exact hov
  rw [schedule_overlap hpos1 hov1]
  have henum : (gs.map (fun x => (x.2, x.1.exposure))).enum
      = gs.enum.map (fun ix => (ix.1, (ix.2.2, ix.2.1.exposure))) :=
    enumFrom_map _ gs 0
  rw [henum, List.map_map, List.map_map]
  simp [Function.comp]

/-- Witness for the amended C3: two overlapping 1000 ms masks on a two-pixel
canvas give exactly two passes of 1000 ms, each a fresh content-identical
composite. -/
theorem claim_C3_witness :
    optimize_layer [(⟨"a.png", 1000, (0 : Nat)⟩ : ImageSetting Nat), ⟨"b.png", 1000, 0⟩]
        (fun f => if f = "a.png" then some mLeft
          else if f = "b.png" then some mBoth else none) =
      some (([(⟨"a.png", 1000, (0 : Nat)⟩, mLeft),
          ((⟨"b.png", 1000, 0⟩ : ImageSetting Nat), mBoth)].enum).map
            (fun ix => (⟨freshName ix.1, ix.2.1.exposure, (0 : Nat)⟩ : ImageSetting Nat)),
        ([(⟨"a.png", 1000, (0 : Nat)⟩, mLeft),
          ((⟨"b.png", 1000, 0⟩ : ImageSetting Nat), mBoth)].enum).map
            (fun ix => (freshName ix.1, ix.2.2))) :=
  claim_C3_amended [(⟨"a.png", 1000, (0 : Nat)⟩, mLeft), (⟨"b.png", 1000, 0⟩, mBoth)] 0 _
    (by decide) (by decide) (by decide) (by decide)

/-- C4: for any nonempty compatibility group of pairwise-disjoint masks all
sharing one identical positive duration d, optimize_layer emits exactly one
pass at duration d (with the group's other-fields), and the mask that pass
refers to equals, pixel for pixel, the pixel-wise maximum (union) of all the
source masks.  (For a single-entry group the pass is the untouched input
setting referring to its original mask; otherwise it is one fresh composite.) -/
theorem claim_C4 {P : Type} [Fintype P] [DecidableEq P] {O : Type} [DecidableEq O]
    (gs : List (ImageSetting O × Mask P)) (o : O) (d : Nat)
    (images : String → Option (Mask P))
    (hne : gs ≠ [])
    (hother : ∀ x ∈ gs, x.1.other = o)
    (hexp : ∀ x ∈ gs, x.1.exposure = d)
    (hd : 0 < d)
    (hnov : ¬ anyOverlap (gs.map Prod.snd))
    (himg : ∀ x ∈ gs, images x.1.file = some x.2) :
    ∃ (s1 : ImageSetting O) (nimgs : List (String × Mask P)) (m : Mask P),
      optimize_layer (gs.map Prod.fst) images = some ([s1], nimgs) ∧
      s1.exposure = d ∧ s1.other = o ∧ passMask images nimgs s1 = some m ∧
      ∀ p : P, m p = unionAll (gs.map Prod.snd) p := by
  have hmapne : gs.map Prod.fst ≠ [] := by
    intro h
    rw [List.map_eq_nil] at h
    exact hne h
  rw [optimize_layer_uniform (o := o)
    (fun s hs => by rcases List.mem_map.mp hs with ⟨x, hx, rfl⟩; exact hother x hx)
    hmapne images]
  rcases gs with _ | ⟨x, rest⟩
  · exact absurd rfl hne
  rcases rest with _ | ⟨y, rest2⟩
  · rw [show (List.map Prod.fst [x]) = [x.1] from rfl]
    rw [sched_group_single]
    refine ⟨x.1, [], x.2, rfl, hexp x (List.mem_cons_self _ _),
      hother x (List.mem_cons_self _ _), ?_, ?_⟩
    · unfold passMask
      simp [alookup, himg x (List.mem_cons_self _ _)]
    · intro p
      rw [show (List.map Prod.snd [x]) = [x.2] from rfl]
      simp
  · have hlen : ((x :: y :: rest2).map Prod.fst).length ≠ 1 := by simp
    have hlk := lookupMasks_pairs himg
    rw [sched_group_multi hlen hlk]
    have hpos1 : ∀ e ∈ (x :: y :: rest2).map (fun z => (z.2, z.1.exposure)), 0 < e.2 := by
      intro e he
      rcases List.mem_map.mp he with ⟨z, hz, rfl⟩
      have := hexp z hz
      simp only [this]
      exact hd
    have hfst : ((x :: y :: rest2).map (fun z => (z.2, z.1.exposure))).map Prod.fst
        = (x :: y :: rest2).map Prod.snd := by
      rw [List.map_map]
      rfl
    have hnov1 : ¬ anyOverlap (((x :: y :: rest2).map
        (fun z => (z.2, z.1.exposure))).map Prod.fst) := by
      rw [hfst]
      exact hnov
    have hlen1 : ((x :: y :: rest2).map (fun z => (z.2, z.1.exposure))).length ≠ 1 := by simp
    rw [schedule_delta hpos1 hnov1 hlen1]
    unfold deltaSchedule
    have hth : thresholds ((x :: y :: rest2).map (fun z => (z.2, z.1.exposure))) = [d] := by
      unfold thresholds
      rw [dedup_const (by simp)
        (fun a ha => by
          rw [List.map_map] at ha
          rcases List.mem_map.mp ha with ⟨z, hz, rfl⟩
          exact hexp z hz)]
      rfl
    rw [hth]
    simp only [deltaAux]
    have hpa : passAt ((x :: y :: rest2).map (fun z => (z.2, z.1.exposure))) d
        = unionAll ((x :: y :: rest2).map Prod.snd) := by
      unfold passAt
      rw [List.filter_eq_self.mpr ?hfd]
      · rw [hfst]
      case hfd =>
        intro e he
        rcases List.mem_map.mp he with ⟨z, hz, rfl⟩
        simp [hexp z hz]
    rw [hpa]
    refine ⟨⟨freshName 0, d, o⟩,
      [(freshName 0, unionAll ((x :: y :: rest2).map Prod.snd))],
      unionAll ((x :: y :: rest2).map Prod.snd), ?_, rfl, rfl, ?_, fun p => rfl⟩
    · simp [List.enum, List.enumFrom]
    · unfold passMask
      simp [alookup]

/-- Witness for C4: two disjoint 1000 ms masks merge into one 1000 ms pass
whose composite is their pixel-wise union. -/
theorem claim_C4_witness :
    ∃ (s1 : ImageSetting Nat) (nimgs : List (String × Mask (Fin 2))) (m : Mask (Fin 2)),
      optimize_layer [(⟨"image1.png", 1000, (0 : Nat)⟩ : ImageSetting Nat), ⟨"image2.png", 1000, 0⟩]
          (fun f => if f = "image1.png" then some mLeft
            else if f = "image2.png" then some mRight else none) = some ([s1], nimgs) ∧
      s1.exposure = 1000 ∧ s1.other = 0 ∧
      passMask (fun f => if f = "image1.png" then some mLeft
        else if f = "image2.png" then some mRight else none) nimgs s1 = some m ∧
      ∀ p : Fin 2, m p = unionAll ([((⟨"image1.png", 1000, 0⟩ : ImageSetting Nat), mLeft),
        (⟨"image2.png", 1000, 0⟩, mRight)].map Prod.snd) p :=
  claim_C4 [(⟨"image1.png", 1000, 0⟩, mLeft), (⟨"image2.png", 1000, 0⟩, mRight)] 0 1000 _
    (by decide) (by decide) (by decide) (by decide) (by decide) (by decide)

/-- C5: a zero-duration entry combined with one positive-duration mask of the
same group yields exactly one emitted pass, of the positive duration, whose
composite mask is the union of the two masks, so every pixel of the
zero-duration mask is present in it; the pass is one newly created composite
image (the new-images list is exactly that one fresh name). -/
theorem claim_C5 {P : Type} [Fintype P] [DecidableEq P] {O : Type} [DecidableEq O]
    (mz mp : Mask P) (o : O) (f1 f2 : String) (d : Nat) (hd : 0 < d) (hne : f1 ≠ f2) :
    optimize_layer [⟨f1, 0, o⟩, ⟨f2, d, o⟩]
        (fun f => if f = f1 then some mz else if f = f2 then some mp else none) =
      some ([⟨freshName 0, d, o⟩], [(freshName 0, maskUnion mp mz)]) ∧
    ∀ p : P, mz p ≠ 0 → maskUnion mp mz p ≠ 0 := by
  constructor
  · rw [optimize_layer_uniform (o := o)
      (fun x hx => by rcases List.mem_cons.mp hx with rfl | hx; · rfl
                      rcases List.mem_cons.mp hx with rfl | hx; · rfl
                      simp at hx)
      (by simp) _]
    have hlk : lookupMasks (fun f => if f = f1 then some mz else if f = f2 then some mp else none)
        [(⟨f1, 0, o⟩ : ImageSetting O), ⟨f2, d, o⟩] = some [(mz, 0), (mp, d)] := by
      simp only [lookupMasks]
      simp [hne, Ne.symm hne]
    rw [sched_group_multi (by simp) hlk]
    have hsch : schedule [(mz, 0), (mp, d)] = [(maskUnion mp mz, d)] := by
      unfold schedule
      rw [if_neg (by simp)]
      have hz : [(mz, (0 : Nat)), (mp, d)].filter (fun e => e.2 = 0) = [(mz, 0)] := by
        simp [List.filter_cons, hd.ne']
      have hp : [(mz, (0 : Nat)), (mp, d)].filter (fun e => 0 < e.2) = [(mp, d)] := by
        simp [List.filter_cons, hd]
      simp only [hz, hp]
      rw [if_neg (by simp [anyOverlap])]
      unfold deltaSchedule
      have hth : thresholds [(mp, d)] = [d] := by
        unfold thresholds
        rw [show (([(mp, d)] : List (Mask P × Nat)).map Prod.snd) = [d] from rfl]
        rw [dedup_const (by simp) (fun a ha => by simpa using ha)]
        rfl
      rw [hth]
      simp only [deltaAux]
      have hpa : passAt [(mp, d)] d = unionAll [mp] := by
        unfold passAt
        rw [List.filter_eq_self.mpr (by intro e he; simp at he; simp [he])]
        rfl
      rw [hpa, unionAll_one]
      show [(maskUnion mp (unionAll [mz]), d - 0)] = [(maskUnion mp mz, d)]
      rw [unionAll_one, Nat.sub_zero]
    rw [hsch]
    simp [List.enum, List.enumFrom]
  · intro p h heq
    exact h (Nat.max_eq_zero_iff.mp heq).2

/-- Witness for C5: a zero-duration right-pixel mask folded into a 1000 ms
left-pixel mask gives one 1000 ms pass containing both pixels. -/
theorem claim_C5_witness :
    optimize_layer [⟨"image1.png", 0, (0 : Nat)⟩, ⟨"image2.png", 1000, 0⟩]
        (fun f => if f = "image1.png" then some mRight
          else if f = "image2.png" then some mLeft else none) =
      some ([⟨freshName 0, 1000, 0⟩], [(freshName 0, maskUnion mLeft mRight)]) ∧
    ∀ p : Fin 2, mRight p ≠ 0 → maskUnion mLeft mRight p ≠ 0 :=
  claim_C5 mRight mLeft 0 "image1.png" "image2.png" 1000 (by decide) (by decide)

/-- C8: when the archive's settings document fails to decode, the decode error
surfaces to the caller unmodified and no output archive is produced: the
driver returns the error itself instead of an output path and archive, before
any output is constructed. -/
theorem claim_C8 {P : Type} [Fintype P] [DecidableEq P] {O : Type} [DecidableEq O]
    (decode : String → Except String (PrintJob O)) (encode : PrintJob O → String)
    (input : ZipFile P) (inputPath : JPath) (outputPath : Option JPath) (doc e : String)
    (hdoc : findDoc input = some doc) (herr : decode doc = Except.error e) :
    optimize_print_file decode encode input inputPath outputPath = Except.error e := by
  unfold optimize_print_file
  simp only [hdoc, herr]

/-- Witness for C8 with a decoder that rejects the document. -/
theorem claim_C8_witness :
    optimize_print_file (P := Fin 1)
        (fun _ => (Except.error "bad json" : Except String (PrintJob Nat))) (fun _ => "x")
        ⟨[(settingsDocName, ZEntry.doc "not json")]⟩ ⟨"dir", "test", ".zip"⟩ none =
      Except.error "bad json" :=
  claim_C8 _ _ _ _ _ "not json" "bad json" rfl rfl

/-- C9: an archive holding only a settings document that decodes to a job with
one empty layer, and no image-store entries at all, optimizes successfully:
the output path is the default one, input stem with _optimized appended, in
the input's directory with the input's extension, and the output archive holds
exactly the unchanged settings document and no mask files. -/
theorem claim_C9 {P : Type} [Fintype P] [DecidableEq P] {O : Type} [DecidableEq O]
    (decode : String → Except String (PrintJob O)) (encode : PrintJob O → String)
    (doc : String) (inputPath : JPath)
    (hdec : decode doc = Except.ok ⟨[[]]⟩) (henc : encode ⟨[[]]⟩ = doc) :
    optimize_print_file decode encode
        (⟨[(settingsDocName, ZEntry.doc doc)]⟩ : ZipFile P) inputPath none =
      Except.ok (⟨inputPath.dir, String.mk (inputPath.stem.data ++ "_optimized".data),
          inputPath.ext⟩,
        (⟨[(settingsDocName, ZEntry.doc doc)]⟩ : ZipFile P)) := by
  unfold optimize_print_file
  have hfd : findDoc (⟨[(settingsDocName, ZEntry.doc doc)]⟩ : ZipFile P) = some doc := by
    simp [findDoc, alookup]
  simp only [hfd, hdec]
  have hops : optimize_print_settings (⟨[[]]⟩ : PrintJob O)
      (imagesOf (⟨[(settingsDocName, ZEntry.doc doc)]⟩ : ZipFile P)) = some (⟨[[]]⟩, []) := rfl
  simp only [hops]
  have hks : keptSlices (⟨[(settingsDocName, ZEntry.doc doc)]⟩ : ZipFile P)
      (⟨[[]]⟩ : PrintJob O) = [] := rfl
  simp [hks, henc, defaultOutput]

/-- Witness for C9 with a concrete codec pair on a one-pixel canvas. -/
theorem claim_C9_witness :
    optimize_print_file (P := Fin 1)
        (fun st => if st = "DOC" then Except.ok (⟨[[]]⟩ : PrintJob Nat)
          else Except.error "bad")
        (fun _ => "DOC")
        ⟨[(settingsDocName, ZEntry.doc "DOC")]⟩ ⟨"dir", "test", ".zip"⟩ none =
      Except.ok (⟨"dir", String.mk ("test".data ++ "_optimized".data), ".zip"⟩,
        ⟨[(settingsDocName, ZEntry.doc "DOC")]⟩) :=
  claim_C9 _ _ "DOC" ⟨"dir", "test", ".zip"⟩ (by simp) rfl

/-- Counterexample to C10 as stated: a passthrough single-entry group keeps its
original file name, and nothing stops an original input name from containing
the marker substring, so a passthrough setting's file name can contain it. -/
theorem claim_C10_counterexample :
    optimize_layer [(⟨"part_opt_small.png", 5, (0 : Nat)⟩ : ImageSetting Nat)]
        (fun _ => (none : Option (Mask (Fin 1)))) =
      some ([⟨"part_opt_small.png", 5, 0⟩], []) ∧
    hasMarker "part_opt_small.png" = true := by
  constructor
  · rfl
  · decide

/-- C10 amended: whenever optimize_layer succeeds, every newly composed mask in
its new-images output carries a file name containing the marker substring, and
every emitted pass either carries such a marker name (newly composed passes) or
is an input setting passed through unchanged with its original file name; so as
long as no input file name contains the marker, optimizer-created composites
are distinguishable from original masks by name alone. -/
theorem claim_C10_amended {P : Type} [Fintype P] [DecidableEq P] {O : Type} [DecidableEq O]
    (settings : List (ImageSetting O)) (images : String → Option (Mask P))
    (out : List (ImageSetting O)) (nimgs : List (String × Mask P))
    (hres : optimize_layer settings images = some (out, nimgs)) :
    (∀ nm ∈ nimgs, hasMarker nm.1 = true) ∧
    (∀ s1 ∈ out, hasMarker s1.file = true ∨ s1 ∈ settings) := by
  unfold optimize_layer at hres
  cases hog : optimize_groups images 0 (group_by_settings settings) with
  | none =>
    simp only [hog] at hres
    exact absurd hres (by simp)
  | some res =>
    simp only [hog] at hres
    rcases res with ⟨out1, ni1, k1⟩
    simp only [Option.some.injEq, Prod.mk.injEq] at hres
    obtain ⟨h1, h2⟩ := hres
    subst h1
    subst h2
    obtain ⟨hni, hout⟩ := marker_groups _ 0 hog
    refine ⟨hni, ?_⟩
    intro s1 hs1
    rcases hout s1 hs1 with hm | ⟨og, hog2, hmem⟩
    · exact Or.inl hm
    · exact Or.inr (bucket_subset hog2 s1 hmem)

/-- Witness for the amended C10 at a concrete passthrough layer. -/
theorem claim_C10_witness :
    (∀ nm ∈ ([] : List (String × Mask (Fin 1))), hasMarker nm.1 = true) ∧
    (∀ s1 ∈ [(⟨"m.png", 7, (0 : Nat)⟩ : ImageSetting Nat)],
      hasMarker s1.file = true ∨ s1 ∈ [(⟨"m.png", 7, (0 : Nat)⟩ : ImageSetting Nat)]) :=
  claim_C10_amended [⟨"m.png", 7, 0⟩] (fun _ => none) _ _ (by decide)

end ExposureOptimizer
